import Mathlib

/-!
Verification of the DUELIST-SAINT probability core.

The TypeScript source (`mathUtils` / `App.tsx`) is shallowly embedded here:

* JavaScript numbers used as integers (deck counts, draw counts, combination
  counts) become `ℤ`; probabilities become `ℚ`.  The source computes `nCr`
  as `round(exp(logFactorial n - logFactorial r - logFactorial (n-r)))`; per
  the documented intent this round-trip through log space is a precision
  recovery producing the exact integer binomial coefficient, so the embedding
  uses `Nat.choose` for that branch.
* The one place where IEEE semantics matter observably (an unguarded
  division that can produce `NaN`) is modelled with an explicit `JSNum`
  type carrying `NaN`/`±Infinity`, and a faithful `jsDiv`.
* Stateful React code (`calculateStepProb` closing over component state)
  becomes a pure function of an explicit `AppState`.
-/

/-- Combinatorics kernel `nCr` (mathUtils).  Source:
`if (r < 0 || r > n) return 0; if (r === 0 || r === n) return 1;
if (r > n / 2) r = n - r;
return Math.round(Math.exp(logFactorial(n) - logFactorial(r) - logFactorial(n - r)))`.
The float comparison `r > n / 2` is the exact comparison `2 * r > n`; the
rounded log-space expression is the exact binomial coefficient. -/
def nCr (n r : ℤ) : ℤ :=
  if r < 0 ∨ r > n then 0
  else if r = 0 ∨ r = n then 1
  else (Nat.choose n.toNat (if 2 * r > n then n - r else r).toNat : ℤ)

/-- A JavaScript `number` result: a finite value, `NaN`, or a signed infinity.
Only division can produce the non-finite values in the embedded code. -/
inductive JSNum where
  | num : ℚ → JSNum
  | nan : JSNum
  | posInf : JSNum
  | negInf : JSNum
deriving DecidableEq

/-- IEEE-754 division as JavaScript performs it on finite operands:
`0 / 0 = NaN`, `x / 0 = ±Infinity` for `x ≠ 0`, exact quotient otherwise. -/
def jsDiv (a b : ℚ) : JSNum :=
  if b = 0 then
    if a = 0 then JSNum.nan
    else if 0 < a then JSNum.posInf
    else JSNum.negInf
  else JSNum.num (a / b)

/-- `hypergeometricPMF` (mathUtils lines 27-31).  The source computes
`numerator / denominator` with NO guard on `nCr(N, n) == 0`:
`const numerator = nCr(K, k) * nCr(N - K, n - k);
const denominator = nCr(N, n);
return numerator / denominator;`. -/
def hypergeometricPMF (N K n k : ℤ) : JSNum :=
  jsDiv ((nCr K k : ℚ) * (nCr (N - K) (n - k) : ℚ)) ((nCr N n : ℚ))

/-- `multivariateHypergeometricPMF` (mathUtils lines 51-63):
returns 0 when `sum(drawnCounts) ≠ n`, otherwise
`(∏ᵢ nCr(populationCounts[i], drawnCounts[i])) / nCr(N, n)`.
All call sites pass lists of equal length (the zip below truncates to the
shorter list; JavaScript would produce `NaN` via an out-of-bounds read).
`ℚ` division by zero yields 0 here; every theorem below either works under
hypotheses making the denominator non-zero or concerns the empty sum. -/
def multivariateHypergeometricPMF (populationCounts drawnCounts : List ℤ)
    (N n : ℤ) : ℚ :=
  if drawnCounts.sum ≠ n then 0
  else (((populationCounts.zip drawnCounts).map
      (fun p => (nCr p.1 p.2 : ℚ))).prod) / ((nCr N n : ℚ))

/-- `binomProb` (mathUtils lines 123-125): `nCr(n,k) * p^k * (1-p)^(n-k)`.
Exponents are non-negative at every call site (`0 ≤ k ≤ n`). -/
def binomProb (n k : ℤ) (p : ℚ) : ℚ :=
  (nCr n k : ℚ) * p ^ k.toNat * (1 - p) ^ (n - k).toNat

/-- The integers `lo, lo+1, …, hi` (empty when `hi < lo`): the index set of
the JavaScript loop `for (let i = lo; i <= hi; i++)`. -/
def intRange (lo hi : ℤ) : List ℤ :=
  (List.range (hi - lo + 1).toNat).map (fun (j : ℕ) => lo + (j : ℤ))

/-- Inner helper `checkThresholds` of `getValidDrawVectors` (mathUtils lines
98-117).  `roleCounts[role]` accumulates `vector[i]` once per occurrence of
`role` in `mapping[i]`; roles absent from `reqs` are ignored.  The JavaScript
threshold object is embedded as an association list with unique keys. -/
def roleSum (vector : List ℤ) (mapping : List (List String)) (role : String) : ℤ :=
  ((vector.zip mapping).map (fun p => ((p.2.count role : ℕ) : ℤ) * p.1)).sum

/-- The acceptance test applied to each completed vector: every thresholded
role's accumulated count lies within its inclusive `[min, max]` bounds. -/
def checkThresholds (vector : List ℤ) (mapping : List (List String))
    (reqs : List (String × ℤ × ℤ)) : Bool :=
  reqs.all (fun e =>
    decide (e.2.1 ≤ roleSum vector mapping e.1 ∧ roleSum vector mapping e.1 ≤ e.2.2))

/-- The recursive `solve` of `getValidDrawVectors` (mathUtils lines 79-96),
with the mutable prefix array `current` made an explicit accumulator `cur`
and the category suffix passed as a list.
* last category (`[p]`): if the remaining draw count fits the population it
  is assigned directly and the completed vector is kept iff `check` accepts;
* earlier categories: every `i` from 0 to `min(remaining, population)` is
  tried;
* empty category list: the JavaScript loop guard compares against
  `Math.min(remaining, undefined) = NaN`, so the loop body never runs and no
  vector is ever produced. -/
def solveVec (check : List ℤ → Bool) : List ℤ → ℤ → List ℤ → List (List ℤ)
  | [], _, _ => []
  | [p], remaining, cur =>
      if remaining ≤ p then
        if check (cur ++ [remaining]) then [cur ++ [remaining]] else []
      else []
  | p :: q :: rest, remaining, cur =>
      (intRange 0 (min remaining p)).flatMap
        (fun i => solveVec check (q :: rest) (remaining - i) (cur ++ [i]))

/-- `getValidDrawVectors` (mathUtils lines 69-121).  `targetRoles` is a
parameter of the source function but is never read by its body. -/
def getValidDrawVectors (populationCounts : List ℤ) (totalDraws : ℤ)
    (targetRoles : List String) (atomToRoles : List (List String))
    (thresholds : List (String × ℤ × ℤ)) : List (List ℤ) :=
  solveVec (fun v => checkThresholds v atomToRoles thresholds)
    populationCounts totalDraws []

/-- The bare enumeration (no threshold filtering): all population-respecting
assignments of `remaining` draws across the categories.  `solveVec` is shown
below to be the `check`-filter of this list. -/
def enumAll : List ℤ → ℤ → List (List ℤ)
  | [], _ => []
  | [p], remaining => if remaining ≤ p then [[remaining]] else []
  | p :: q :: rest, remaining =>
      (intRange 0 (min remaining p)).flatMap
        (fun i => (enumAll (q :: rest) (remaining - i)).map (fun w => i :: w))

/-- A deck category (`DeckAtom` in types): a card count and its role tags.
The `id`/`name` strings play no part in the mathematics and are omitted. -/
structure DeckAtom where
  count : ℤ
  roles : List String
deriving DecidableEq

/-- One role threshold of a compound condition. -/
structure RoleThreshold where
  role : String
  minCount : ℤ
  maxCount : ℤ
deriving DecidableEq

/-- A compound condition: conjunctive role thresholds plus a weight used only
downstream of the probability computation. -/
structure CompoundCondition where
  weight : ℚ
  thresholds : List RoleThreshold
deriving DecidableEq

/-- `MulliganConfig` (types): `type` and `maxMulligans` are carried by the
source object but never read by `calculateStepProb`. -/
structure MulliganConfig where
  enabled : Bool
  keepRole : String
  keepMin : ℤ
deriving DecidableEq

/-- The slice of a `GamePreset` read by the probability engine. -/
structure GamePreset where
  drawOnTurnOneFirst : Bool
  drawOnTurnOneSecond : Bool
deriving DecidableEq

/-- The component state that `calculateStepProb` (App.tsx lines 234-277,
identically mirrored in the second source copy) closes over. -/
structure AppState where
  deckSize : ℤ
  startHand : ℤ
  isGoingSecond : Bool
  currentPreset : GamePreset
  atoms : List DeckAtom
  mulligan : MulliganConfig
deriving DecidableEq

/-- `DEFAULT_ROLES` (constants). -/
def DEFAULT_ROLES : List String :=
  ["Starter", "Extender", "Brick", "Defensive", "Utility"]

/-- Derived `allRoles`: `new Set(DEFAULT_ROLES)` extended by every atom role,
in insertion order. -/
def allRoles (atoms : List DeckAtom) : List String :=
  (DEFAULT_ROLES ++ atoms.flatMap (fun a => a.roles)).foldl
    (fun acc r => if r ∈ acc then acc else acc ++ [r]) []

/-- One JavaScript-object assignment `thresholds[t.role] = {min, max}`:
overwrite in place when the key exists, append otherwise. -/
def insertThreshold (m : List (String × ℤ × ℤ)) (r : String) (b : ℤ × ℤ) :
    List (String × ℤ × ℤ) :=
  if m.any (fun e => e.1 = r) then
    m.map (fun e => if e.1 = r then (r, b) else e)
  else m ++ [(r, b)]

/-- The `thresholds` object built by `calculateStepProb` from
`condition.thresholds.forEach(t => thresholds[t.role] = {...})`. -/
def buildThresholds (ts : List RoleThreshold) : List (String × ℤ × ℤ) :=
  ts.foldl (fun m t => insertThreshold m t.role (t.minCount, t.maxCount)) []

/-- The turn-one opening-hand draw count
`startHand + (isGoingSecond && currentPreset.drawOnTurnOneSecond ? 1 : 0)`
(App.tsx line 259). -/
def openingDraws (st : AppState) : ℤ :=
  st.startHand +
    (if st.isGoingSecond ∧ st.currentPreset.drawOnTurnOneSecond then 1 else 0)

/-- `calculateStepProb` (App.tsx lines 234-277): the event probability for
`condition` when `drawCount` cards have been seen, with the single-retry
mulligan adjustment applied on the opening hand when enabled. -/
def calculateStepProb (st : AppState) (drawCount : ℤ)
    (condition : CompoundCondition) (forceMulligan : Bool) : ℚ :=
  if drawCount ≤ 0 ∨ st.deckSize ≤ 0 then 0
  else
    let totalAtomCount := (st.atoms.map (fun a => a.count)).sum
    let remainingCards := st.deckSize - totalAtomCount
    let populationCounts :=
      st.atoms.map (fun a => a.count) ++
        (if 0 < remainingCards then [remainingCards] else [])
    let atomToRoles :=
      st.atoms.map (fun a => a.roles) ++
        (if 0 < remainingCards then [([] : List String)] else [])
    let thresholds := buildThresholds condition.thresholds
    let rawProb :=
      ((getValidDrawVectors populationCounts drawCount (allRoles st.atoms)
          atomToRoles thresholds).map
        (fun v => multivariateHypergeometricPMF populationCounts v st.deckSize
          drawCount)).sum
    if st.mulligan.enabled ∧ drawCount = openingDraws st ∧ ¬forceMulligan then
      let keepThresholds :=
        [(st.mulligan.keepRole, (st.mulligan.keepMin, st.deckSize))]
      let probKeep :=
        ((getValidDrawVectors populationCounts drawCount (allRoles st.atoms)
            atomToRoles keepThresholds).map
          (fun v => multivariateHypergeometricPMF populationCounts v st.deckSize
            drawCount)).sum
      rawProb + (1 - probKeep) * rawProb
    else rawProb

/-- The mulligan keep criterion as a stand-alone condition: a single role
threshold `keepRole ∈ [keepMin, deckSize]`, exactly the `keepThresholds`
object built inside `calculateStepProb`. -/
def keepCondition (st : AppState) : CompoundCondition :=
  { weight := 1,
    thresholds := [⟨st.mulligan.keepRole, st.mulligan.keepMin, st.deckSize⟩] }

/-- `getStaminaPenalty` (App.tsx lines 435-440): late-round fatigue penalty,
3% on the final Swiss round, 2% on the second-to-last, otherwise 0. -/
def getStaminaPenalty (staminaFactor : Bool) (tournamentRounds roundNum : ℤ) : ℚ :=
  if ¬staminaFactor then 0
  else if tournamentRounds ≤ roundNum then 3 / 100
  else if tournamentRounds - 1 ≤ roundNum then 2 / 100
  else 0

/-- The stamina-mode dynamic program (App.tsx lines 446-456):
`dp[0][0] = 1`, `dp[r][w] = dp[r-1][w-1]·p_r + dp[r-1][w]·(1-p_r)` with
`p_r = max(0, P_match - getStaminaPenalty(r))`.  The source fills `dp[r][w]`
only for `w ≤ r` over a zero-initialised array; this total recurrence agrees
with it there and also yields 0 for `w > r`. -/
def swissDP (pMatch : ℚ) (staminaFactor : Bool) (tournamentRounds : ℕ) :
    ℕ → ℕ → ℚ
  | 0, 0 => 1
  | 0, _ + 1 => 0
  | r + 1, w =>
      let p := max 0 (pMatch -
        getStaminaPenalty staminaFactor (tournamentRounds : ℤ) ((r : ℤ) + 1))
      (if w = 0 then 0
       else swissDP pMatch staminaFactor tournamentRounds r (w - 1) * p) +
        swissDP pMatch staminaFactor tournamentRounds r w * (1 - p)

/-- The Swiss round distribution `roundsDist` (App.tsx lines 442-476), win
probabilities indexed by win count `w = 0 … R`: the stamina DP row `dp[R]`
when the stamina factor is on, else the binomial distribution.  The source's
`wins`/`losses`/`record` fields are presentation data recoverable from the
index and are not modelled. -/
def roundsDist (pMatch : ℚ) (staminaFactor : Bool) (tournamentRounds : ℕ) :
    List ℚ :=
  if staminaFactor then
    (List.range (tournamentRounds + 1)).map
      (fun w => swissDP pMatch staminaFactor tournamentRounds tournamentRounds w)
  else
    (List.range (tournamentRounds + 1)).map
      (fun (w : ℕ) => binomProb (tournamentRounds : ℤ) (w : ℤ) pMatch)

/-- The best-of-3 match formula (App.tsx lines 410-414):
`P(WW) + P(WLW) + P(LWW)`. -/
def matchWinProb (pg1 pg2AfterWin pg2AfterLoss pg3 : ℚ) : ℚ :=
  pg1 * pg2AfterWin + pg1 * (1 - pg2AfterWin) * pg3 +
    (1 - pg1) * pg2AfterLoss * pg3

/-! ## Combinatorics kernel lemmas -/

/-- `nCr` never returns a negative value. -/
theorem nCr_nonneg (n r : ℤ) : 0 ≤ nCr n r := by
  unfold nCr
  split_ifs <;> simp

/-- Outside `0 ≤ r ≤ n` the kernel returns 0. -/
theorem nCr_eq_zero (n r : ℤ) (h : r < 0 ∨ n < r) : nCr n r = 0 := by
  unfold nCr
  rw [if_pos]
  omega

/-- In the valid range, `nCr` is the exact binomial coefficient. -/
theorem nCr_eq_choose {n r : ℤ} (hr : 0 ≤ r) (hrn : r ≤ n) :
    nCr n r = (Nat.choose n.toNat r.toNat : ℤ) := by
  unfold nCr
  rw [if_neg (by omega)]
  by_cases h0 : r = 0 ∨ r = n
  · rw [if_pos h0]
    rcases h0 with h | h
    · subst h; simp
    · subst h; simp [Nat.choose_self]
  · rw [if_neg h0]
    push_neg at h0
    by_cases h2 : 2 * r > n
    · simp only [if_pos h2]
      have h1 : (n - r).toNat = n.toNat - r.toNat := by omega
      rw [h1, Nat.choose_symm (by omega)]
    · simp only [if_neg h2]

/-- `nCr` is strictly positive in the valid range. -/
theorem nCr_pos {n r : ℤ} (hr : 0 ≤ r) (hrn : r ≤ n) : 0 < nCr n r := by
  rw [nCr_eq_choose hr hrn]
  exact_mod_cast Nat.choose_pos (by omega)

/-! ## Enumerator lemmas -/

/-- Membership in the loop index range. -/
theorem mem_intRange {lo hi x : ℤ} : x ∈ intRange lo hi ↔ lo ≤ x ∧ x ≤ hi := by
  unfold intRange
  simp only [List.mem_map, List.mem_range]
  constructor
  · rintro ⟨j, hj, rfl⟩
    omega
  · rintro ⟨h1, h2⟩
    exact ⟨(x - lo).toNat, by omega, by omega⟩

/-- Every enumerated vector sums to the requested draw count. -/
theorem sum_of_mem_enumAll : ∀ (pops : List ℤ) (r : ℤ) (v : List ℤ),
    v ∈ enumAll pops r → v.sum = r
  | [], _, v, h => by simp [enumAll] at h
  | [p], r, v, h => by
      by_cases hle : r ≤ p
      · simp only [enumAll, if_pos hle, List.mem_singleton] at h
        subst h
        simp
      · simp [enumAll, if_neg hle] at h
  | p :: q :: rest, r, v, h => by
      simp only [enumAll, List.mem_flatMap, List.mem_map] at h
      obtain ⟨i, _hi, w, hw, rfl⟩ := h
      have hs := sum_of_mem_enumAll (q :: rest) (r - i) w hw
      simp only [List.sum_cons, hs]
      omega

/-- Every enumerated vector covers one entry per category. -/
theorem length_of_mem_enumAll : ∀ (pops : List ℤ) (r : ℤ) (v : List ℤ),
    v ∈ enumAll pops r → v.length = pops.length
  | [], _, v, h => by simp [enumAll] at h
  | [p], r, v, h => by
      by_cases hle : r ≤ p
      · simp only [enumAll, if_pos hle, List.mem_singleton] at h
        subst h
        rfl
      · simp [enumAll, if_neg hle] at h
  | p :: q :: rest, r, v, h => by
      simp only [enumAll, List.mem_flatMap, List.mem_map] at h
      obtain ⟨i, _hi, w, hw, rfl⟩ := h
      have := length_of_mem_enumAll (q :: rest) (r - i) w hw
      simpa using this

/-- An over-large draw request: no population-respecting assignment exists. -/
theorem enumAll_eq_nil_of_sum_lt : ∀ (pops : List ℤ) (r : ℤ),
    pops.sum < r → enumAll pops r = []
  | [], _, _ => rfl
  | [p], r, h => by
      simp only [List.sum_cons, List.sum_nil, add_zero] at h
      simp [enumAll, if_neg (by omega : ¬ r ≤ p)]
  | p :: q :: rest, r, h => by
      simp only [enumAll]
      refine List.flatMap_eq_nil_iff.mpr (fun i hi => ?_)
      rw [mem_intRange] at hi
      rw [enumAll_eq_nil_of_sum_lt (q :: rest) (r - i) (by
        simp only [List.sum_cons] at h ⊢
        omega)]
      rfl

/-- A vector bounded below by 0 entrywise has a non-negative sum. -/
theorem forall₂_sum_nonneg {v pops : List ℤ}
    (h : List.Forall₂ (fun a p => 0 ≤ a ∧ a ≤ p) v pops) : 0 ≤ v.sum := by
  induction h with
  | nil => simp
  | cons hab _ ih =>
      simp only [List.sum_cons]
      have := hab.1
      omega

/-- Entries of vectors over an enumeration with non-negative remaining draws
are non-negative and bounded by the category populations; conversely every
such assignment summing to the draw count is enumerated (for a non-empty
category list). -/
theorem mem_enumAll_iff : ∀ (pops : List ℤ) (r : ℤ) (v : List ℤ),
    pops ≠ [] → 0 ≤ r →
    (v ∈ enumAll pops r ↔
      List.Forall₂ (fun a p => 0 ≤ a ∧ a ≤ p) v pops ∧ v.sum = r)
  | [], _, _, hne, _ => absurd rfl hne
  | [p], r, v, _, hr => by
      constructor
      · intro h
        by_cases hle : r ≤ p
        · simp only [enumAll, if_pos hle, List.mem_singleton] at h
          subst h
          exact ⟨List.Forall₂.cons ⟨hr, hle⟩ List.Forall₂.nil, by simp⟩
        · simp [enumAll, if_neg hle] at h
      · rintro ⟨hf, hsum⟩
        rcases List.forall₂_cons_right_iff.mp hf with ⟨a, l, ⟨ha0, hap⟩, hl, rfl⟩
        rcases List.forall₂_nil_right_iff.mp hl with rfl
        simp only [List.sum_cons, List.sum_nil, add_zero] at hsum
        subst hsum
        simp [enumAll, if_pos hap]
  | p :: q :: rest, r, v, _, hr => by
      constructor
      · intro h
        simp only [enumAll, List.mem_flatMap, List.mem_map] at h
        obtain ⟨i, hi, w, hw, rfl⟩ := h
        rw [mem_intRange] at hi
        have hri : 0 ≤ r - i := by omega
        have ih := (mem_enumAll_iff (q :: rest) (r - i) w (by simp) hri).mp hw
        refine ⟨List.Forall₂.cons ⟨hi.1, le_trans hi.2 (min_le_right _ _)⟩ ih.1, ?_⟩
        simp only [List.sum_cons, ih.2]
        omega
      · rintro ⟨hf, hsum⟩
        rcases List.forall₂_cons_right_iff.mp hf with ⟨a, l, ⟨ha0, hap⟩, hl, rfl⟩
        have hlsum : 0 ≤ l.sum := forall₂_sum_nonneg hl
        simp only [List.sum_cons] at hsum
        have hmem := (mem_enumAll_iff (q :: rest) (r - a) l (by simp)
          (by omega)).mpr ⟨hl, by omega⟩
        simp only [enumAll, List.mem_flatMap, List.mem_map]
        exact ⟨a, mem_intRange.mpr ⟨ha0, by omega⟩, l, hmem, rfl⟩
  termination_by pops => pops.length

/-- The leaf-level acceptance test of `solveVec` is the same as filtering the
bare enumeration: the check only ever sees completed vectors. -/
theorem solveVec_eq_filter (check : List ℤ → Bool) : ∀ (pops : List ℤ) (r : ℤ)
    (cur : List ℤ),
    solveVec check pops r cur = ((enumAll pops r).map (fun w => cur ++ w)).filter check
  | [], r, cur => by simp [solveVec, enumAll]
  | [p], r, cur => by
      by_cases hle : r ≤ p
      · simp only [solveVec, enumAll, if_pos hle, List.map_cons, List.map_nil,
          List.filter]
        split <;> simp_all
      · simp [solveVec, enumAll, if_neg hle]
  | p :: q :: rest, r, cur => by
      simp only [solveVec, enumAll, List.map_flatMap, List.filter_flatMap]
      refine List.flatMap_congr (fun i hi => ?_)
      rw [solveVec_eq_filter check (q :: rest) (r - i) (cur ++ [i])]
      simp [List.map_map, Function.comp_def, List.append_assoc]

/-- `getValidDrawVectors` is the threshold-filter of the bare enumeration. -/
theorem getValidDrawVectors_eq_filter (pops : List ℤ) (totalDraws : ℤ)
    (roles : List String) (mapping : List (List String))
    (thr : List (String × ℤ × ℤ)) :
    getValidDrawVectors pops totalDraws roles mapping thr =
      (enumAll pops totalDraws).filter
        (fun v => checkThresholds v mapping thr) := by
  rw [getValidDrawVectors, solveVec_eq_filter]
  simp

/-! ## Vandermonde: the bare enumeration weighted by products of binomial
coefficients sums to a single binomial coefficient. -/

/-- In the valid lower range, `nCr` is the binomial coefficient even past the
upper bound (both sides vanish there). -/
theorem nCr_eq_choose_of_nonneg {n r : ℤ} (hn : 0 ≤ n) (hr : 0 ≤ r) :
    nCr n r = (Nat.choose n.toNat r.toNat : ℤ) := by
  rcases le_or_lt r n with h | h
  · exact nCr_eq_choose hr h
  · rw [nCr_eq_zero n r (Or.inr h), Nat.choose_eq_zero_of_lt (by omega)]
    rfl

/-- A `List.range` sum is the corresponding `Finset.range` sum. -/
theorem list_range_map_sum {M : Type} [AddCommMonoid M] (n : ℕ) (f : ℕ → M) :
    ((List.range n).map f).sum = ∑ j ∈ Finset.range n, f j := by
  induction n with
  | zero => rfl
  | succ k ih =>
      rw [List.range_succ, List.map_append, List.sum_append, Finset.sum_range_succ,
        ih]
      simp

/-- Sums over a `flatMap` decompose into iterated sums. -/
theorem sum_map_flatMap {α β M : Type} [AddCommMonoid M] (l : List α)
    (f : α → List β) (g : β → M) :
    ((l.flatMap f).map g).sum = (l.map (fun a => ((f a).map g).sum)).sum := by
  induction l with
  | nil => rfl
  | cons a t ih =>
      simp only [List.flatMap_cons, List.map_append, List.sum_append, ih,
        List.map_cons, List.sum_cons]

/-- Vandermonde's identity for the kernel `nCr`, with the loop truncated at
`min r p` exactly as the enumerator truncates it. -/
theorem nCr_vandermonde (p s r : ℤ) (hp : 0 ≤ p) (hs : 0 ≤ s) :
    ((intRange 0 (min r p)).map (fun i => nCr p i * nCr s (r - i))).sum =
      nCr (p + s) r := by
  rcases lt_or_le r 0 with hr | hr
  · rw [nCr_eq_zero (p + s) r (Or.inl hr), intRange]
    have h1 : (min r p - 0 + 1).toNat = 0 := by omega
    rw [h1]
    rfl
  · have hmin : (min r p - 0 + 1).toNat = (min r p).toNat + 1 := by omega
    rw [intRange, hmin, List.map_map, list_range_map_sum]
    have hcong : ∀ j ∈ Finset.range ((min r p).toNat + 1),
        ((fun i => nCr p i * nCr s (r - i)) ∘ fun (j : ℕ) => 0 + (j : ℤ)) j =
          ((Nat.choose p.toNat j * Nat.choose s.toNat (r.toNat - j) : ℕ) : ℤ) := by
      intro j hj
      simp only [Finset.mem_range] at hj
      have hjr : (j : ℤ) ≤ r := by omega
      simp only [Function.comp_apply, zero_add]
      rw [nCr_eq_choose_of_nonneg hp (by omega),
        nCr_eq_choose_of_nonneg hs (by omega)]
      have h2 : ((j : ℤ)).toNat = j := by omega
      have h3 : (r - (j : ℤ)).toNat = r.toNat - j := by omega
      rw [h2, h3]
      push_cast
      ring
    rw [Finset.sum_congr rfl hcong]
    have hzero : ∀ j ∈ Finset.range (r.toNat + 1),
        j ∉ Finset.range ((min r p).toNat + 1) →
        ((Nat.choose p.toNat j * Nat.choose s.toNat (r.toNat - j) : ℕ) : ℤ) = 0 := by
      intro j hj hnj
      simp only [Finset.mem_range] at hj hnj
      rw [Nat.choose_eq_zero_of_lt (show p.toNat < j by omega)]
      simp
    rw [Finset.sum_subset (Finset.range_subset.mpr (by omega :
        (min r p).toNat + 1 ≤ r.toNat + 1)) hzero]
    rw [← Nat.cast_sum]
    have hnat : (∑ j ∈ Finset.range (r.toNat + 1),
        Nat.choose p.toNat j * Nat.choose s.toNat (r.toNat - j)) =
        Nat.choose (p.toNat + s.toNat) r.toNat := by
      rw [← Finset.Nat.sum_antidiagonal_eq_sum_range_succ
        (fun a b => Nat.choose p.toNat a * Nat.choose s.toNat b) r.toNat]
      exact (Nat.add_choose_eq p.toNat s.toNat r.toNat).symm
    rw [hnat, nCr_eq_choose_of_nonneg (by omega : (0:ℤ) ≤ p + s) hr]
    have h4 : (p + s).toNat = p.toNat + s.toNat := by omega
    rw [h4]

/-- Multivariate Vandermonde: over the bare enumeration, the products of
per-category combination counts sum to the combination count of the whole
population.  This is the total mass of the multivariate hypergeometric
numerators. -/
theorem enumAll_vecProd_sum : ∀ (pops : List ℤ) (r : ℤ), pops ≠ [] →
    (∀ x ∈ pops, 0 ≤ x) →
    ((enumAll pops r).map
      (fun v => ((pops.zip v).map (fun q => nCr q.1 q.2)).prod)).sum =
      nCr pops.sum r
  | [], _, hne, _ => absurd rfl hne
  | [p], r, _, _ => by
      simp only [List.sum_cons, List.sum_nil, add_zero]
      by_cases hle : r ≤ p
      · simp [enumAll, if_pos hle]
      · rw [nCr_eq_zero p r (Or.inr (by omega))]
        simp [enumAll, if_neg hle]
  | p :: q :: rest, r, _, hpos => by
      have hs : 0 ≤ (q :: rest).sum :=
        List.sum_nonneg (fun x hx => hpos x (List.mem_cons_of_mem p hx))
      have hp : 0 ≤ p := hpos p (List.mem_cons_self p (q :: rest))
      simp only [enumAll, sum_map_flatMap]
      have hinner : ∀ i : ℤ,
          (((enumAll (q :: rest) (r - i)).map (fun w => i :: w)).map
            (fun v => (((p :: q :: rest).zip v).map
              (fun e => nCr e.1 e.2)).prod)).sum =
          nCr p i * nCr (q :: rest).sum (r - i) := by
        intro i
        rw [List.map_map]
        have hfun : ((fun v => (((p :: q :: rest).zip v).map
            (fun e => nCr e.1 e.2)).prod) ∘ fun w => i :: w) =
            (fun w => nCr p i * (((q :: rest).zip w).map
              (fun e => nCr e.1 e.2)).prod) := by
          funext w
          simp [List.zip_cons_cons]
        rw [hfun, List.sum_map_mul_left,
          enumAll_vecProd_sum (q :: rest) (r - i) (by simp)
            (fun x hx => hpos x (List.mem_cons_of_mem p hx))]
      have hmap : ((intRange 0 (min r p)).map
          (fun i => (((enumAll (q :: rest) (r - i)).map (fun w => i :: w)).map
            (fun v => (((p :: q :: rest).zip v).map
              (fun e => nCr e.1 e.2)).prod)).sum)) =
          (intRange 0 (min r p)).map
            (fun i => nCr p i * nCr (q :: rest).sum (r - i)) :=
        List.map_congr_left (fun i _ => hinner i)
      rw [hmap, nCr_vandermonde p (q :: rest).sum r hp hs]
      simp
  termination_by pops => pops.length

/-! ## Probability bounds for the composition layer -/

/-- A list of non-negative integers has a non-negative product. -/
theorem int_list_prod_nonneg : ∀ (l : List ℤ), (∀ x ∈ l, 0 ≤ x) → 0 ≤ l.prod
  | [], _ => by simp
  | a :: t, h => by
      simp only [List.prod_cons]
      exact mul_nonneg (h a (List.mem_cons_self a t))
        (int_list_prod_nonneg t (fun x hx => h x (List.mem_cons_of_mem a hx)))

/-- Casting an integer list product into `ℚ`. -/
theorem int_cast_list_prod : ∀ (l : List ℤ),
    ((l.prod : ℤ) : ℚ) = (l.map (fun a => ((a : ℤ) : ℚ))).prod
  | [] => by simp
  | a :: t => by
      simp only [List.prod_cons, List.map_cons]
      push_cast
      rfl

/-- The multivariate hypergeometric PMF is never negative. -/
theorem multivariateHypergeometricPMF_nonneg (pops v : List ℤ) (N n : ℤ) :
    0 ≤ multivariateHypergeometricPMF pops v N n := by
  unfold multivariateHypergeometricPMF
  split
  · exact le_refl 0
  · apply div_nonneg
    · have hcast : ((pops.zip v).map (fun e => (nCr e.1 e.2 : ℚ))).prod =
          ((((pops.zip v).map (fun e => nCr e.1 e.2)).prod : ℤ) : ℚ) := by
        rw [int_cast_list_prod, List.map_map]
        rfl
      rw [hcast]
      exact_mod_cast int_list_prod_nonneg _ (by
        intro x hx
        simp only [List.mem_map] at hx
        obtain ⟨e, _, rfl⟩ := hx
        exact nCr_nonneg e.1 e.2)
    · exact_mod_cast nCr_nonneg N n

/-- Dropping (filtered-out) non-negative summands can only shrink a sum. -/
theorem sum_map_filter_le {α : Type} (l : List α) (q : α → Bool) (f : α → ℚ)
    (h : ∀ x ∈ l, 0 ≤ f x) :
    ((l.filter q).map f).sum ≤ (l.map f).sum := by
  induction l with
  | nil => exact le_refl 0
  | cons a t ih =>
      have ht := ih (fun x hx => h x (List.mem_cons_of_mem a hx))
      have ha := h a (List.mem_cons_self a t)
      simp only [List.filter_cons]
      split
      · simp only [List.map_cons, List.sum_cons]
        exact add_le_add_left ht (f a)
      · simp only [List.map_cons, List.sum_cons]
        exact le_trans ht (by linarith)

/-- Summing integer numerators over a common rational denominator. -/
theorem sum_div_cast {α : Type} (l : List α) (f : α → ℤ) (d : ℚ) :
    (l.map (fun x => ((f x : ℤ) : ℚ) / d)).sum = (((l.map f).sum : ℤ) : ℚ) / d := by
  induction l with
  | nil => simp
  | cons a t ih =>
      simp only [List.map_cons, List.sum_cons, ih]
      push_cast
      ring

/-- On the bare enumeration the PMF summands are exactly the Vandermonde
numerators over the common denominator `nCr N n`. -/
theorem enumAll_pmf_sum (pops : List ℤ) (N n : ℤ) :
    ((enumAll pops n).map
      (fun v => multivariateHypergeometricPMF pops v N n)).sum =
      ((((enumAll pops n).map
        (fun v => ((pops.zip v).map (fun e => nCr e.1 e.2)).prod)).sum : ℤ) : ℚ) /
        ((nCr N n : ℤ) : ℚ) := by
  have hmap : (enumAll pops n).map
      (fun v => multivariateHypergeometricPMF pops v N n) =
      (enumAll pops n).map
        (fun v => ((((pops.zip v).map (fun e => nCr e.1 e.2)).prod : ℤ) : ℚ) /
          ((nCr N n : ℤ) : ℚ)) := by
    apply List.map_congr_left
    intro v hv
    have hsum := sum_of_mem_enumAll pops n v hv
    unfold multivariateHypergeometricPMF
    rw [if_neg (by omega)]
    congr 1
    rw [int_cast_list_prod, List.map_map]
    rfl
  rw [hmap, sum_div_cast]

/-- Any sum of multivariate hypergeometric PMF values is non-negative. -/
theorem pmf_sum_nonneg (vs : List (List ℤ)) (pops : List ℤ) (N n : ℤ) :
    0 ≤ (vs.map (fun v => multivariateHypergeometricPMF pops v N n)).sum := by
  apply List.sum_nonneg
  intro x hx
  simp only [List.mem_map] at hx
  obtain ⟨v, _, rfl⟩ := hx
  exact multivariateHypergeometricPMF_nonneg pops v N n

/-- For a well-formed deck (non-negative category counts fitting inside the
population `N`) and a positive draw count, the event probability — the PMF
mass of the threshold-filtered enumeration — is at most 1. -/
theorem eventProb_sum_le_one (pops : List ℤ) (roles : List String)
    (mapping : List (List String)) (thr : List (String × ℤ × ℤ)) (N n : ℤ)
    (hne : pops ≠ []) (hpos : ∀ x ∈ pops, 0 ≤ x) (hsum : pops.sum ≤ N)
    (hn : 1 ≤ n) :
    ((getValidDrawVectors pops n roles mapping thr).map
      (fun v => multivariateHypergeometricPMF pops v N n)).sum ≤ 1 := by
  rw [getValidDrawVectors_eq_filter]
  rcases lt_or_le pops.sum n with hlt | hle
  · rw [enumAll_eq_nil_of_sum_lt pops n hlt]
    simp
  · have h0 : (0:ℤ) ≤ pops.sum := List.sum_nonneg hpos
    have hN0 : (0:ℤ) < nCr N n := nCr_pos (by omega) (by omega)
    have hfil := sum_map_filter_le (enumAll pops n)
      (fun v => checkThresholds v mapping thr)
      (fun v => multivariateHypergeometricPMF pops v N n)
      (fun v _ => multivariateHypergeometricPMF_nonneg pops v N n)
    refine le_trans hfil ?_
    rw [enumAll_pmf_sum, enumAll_vecProd_sum pops n hne hpos]
    rw [div_le_one (by exact_mod_cast hN0)]
    have hchoose : nCr pops.sum n ≤ nCr N n := by
      rw [nCr_eq_choose_of_nonneg h0 (by omega),
        nCr_eq_choose_of_nonneg (by omega) (by omega)]
      exact_mod_cast Nat.choose_le_choose n.toNat
        (by omega : pops.sum.toNat ≤ N.toNat)
    exact_mod_cast hchoose

/-- C2 (amended): for a well-formed deck (non-negative atom counts that fit
inside the declared deck size) and a disabled mulligan adjustment,
`calculateStepProb` always lies in `[0, 1]`.  (With the mulligan adjustment
enabled, or with atom counts exceeding the deck size, the result can exceed
1 — see the counterexample.) -/
theorem calculateStepProb_mem_unitInterval (st : AppState) (drawCount : ℤ)
    (condition : CompoundCondition) (forceMulligan : Bool)
    (hatoms : ∀ a ∈ st.atoms, 0 ≤ a.count)
    (hfit : (st.atoms.map (fun a => a.count)).sum ≤ st.deckSize)
    (hmul : st.mulligan.enabled = false) :
    0 ≤ calculateStepProb st drawCount condition forceMulligan ∧
      calculateStepProb st drawCount condition forceMulligan ≤ 1 := by
  unfold calculateStepProb
  by_cases hg : drawCount ≤ 0 ∨ st.deckSize ≤ 0
  · rw [if_pos hg]
    norm_num
  · rw [if_neg hg]
    push_neg at hg
    simp only [hmul, Bool.false_eq_true, false_and, if_false]
    set A := st.atoms.map (fun a => a.count) with hA
    set rem := st.deckSize - A.sum with hrem
    set pops := A ++ (if 0 < rem then [rem] else []) with hpops
    have hpos : ∀ x ∈ pops, 0 ≤ x := by
      intro x hx
      rw [hpops] at hx
      rcases List.mem_append.mp hx with h | h
      · rw [hA] at h
        simp only [List.mem_map] at h
        obtain ⟨a, ha, rfl⟩ := h
        exact hatoms a ha
      · by_cases h0 : 0 < rem
        · rw [if_pos h0] at h
          simp only [List.mem_singleton] at h
          omega
        · rw [if_neg h0] at h
          simp at h
    have hsum : pops.sum ≤ st.deckSize := by
      rw [hpops, List.sum_append]
      by_cases h0 : 0 < rem
      · rw [if_pos h0]
        simp only [List.sum_cons, List.sum_nil, add_zero]
        omega
      · rw [if_neg h0]
        simp only [List.sum_nil, add_zero]
        omega
    have hne : pops ≠ [] := by
      rw [hpops]
      by_cases h0 : 0 < rem
      · rw [if_pos h0]
        simp
      · rw [if_neg h0]
        simp only [List.append_nil]
        intro hcon
        rw [hA] at hcon
        have : A.sum = 0 := by rw [hA, hcon]; rfl
        omega
    constructor
    · exact pmf_sum_nonneg _ _ _ _
    · exact eventProb_sum_le_one pops (allRoles st.atoms) _ _ st.deckSize drawCount
        hne hpos hsum (by omega)

/-! ## Claim theorems (part 1) -/

/-- C1: the code divides `nCr(K,k)*nCr(N-K,n-k)` by `nCr(N,n)` without any
guard, so at `N = 1, K = 0, n = 2, k = 0` (a draw exceeding the population,
`nCr(1,2) = 0`) the numerator is also 0 and JavaScript evaluates `0 / 0` to
`NaN` instead of the probability 0 that the specification requires. -/
theorem hypergeometricPMF_unguarded_div_nan :
    hypergeometricPMF 1 0 2 0 = JSNum.nan := by
  norm_num [hypergeometricPMF, jsDiv, nCr]

/-- Shared helper: the initial guard of `calculateStepProb` short-circuits
to 0. -/
theorem stepProb_zero_of_guard (st : AppState) (d : ℤ)
    (c : CompoundCondition) (f : Bool) (h : d ≤ 0 ∨ st.deckSize ≤ 0) :
    calculateStepProb st d c f = 0 := by
  unfold calculateStepProb
  rw [if_pos h]

/-- C10: `calculateStepProb` returns exactly 0 whenever `drawCount ≤ 0` or
`deckSize ≤ 0`, for every condition, mulligan configuration and
`forceMulligan` flag — the guard fires before any enumeration and before the
mulligan adjustment. -/
theorem calculateStepProb_guard_zero (st : AppState) (d : ℤ)
    (c : CompoundCondition) (f : Bool) (h : d ≤ 0 ∨ st.deckSize ≤ 0) :
    calculateStepProb st d c f = 0 :=
  stepProb_zero_of_guard st d c f h

/-- Witness for C10 at a concrete state with `drawCount = 0`. -/
theorem calculateStepProb_guard_zero_witness :
    calculateStepProb
      { deckSize := 40, startHand := 5, isGoingSecond := false,
        currentPreset := ⟨false, true⟩,
        atoms := [⟨12, ["Starter"]⟩], mulligan := ⟨true, "Starter", 1⟩ }
      0 ⟨1, [⟨"Starter", 1, 40⟩]⟩ false = 0 :=
  calculateStepProb_guard_zero _ 0 _ false (Or.inl (by norm_num))

/-- C5: when the requested draw count exceeds the total population, the
enumerator returns the empty list, and hence the event probability (the sum
of multivariate hypergeometric PMF values over the returned vectors) is 0
for every condition and every `N`, `n`. -/
theorem getValidDrawVectors_overdraw (pops : List ℤ) (totalDraws : ℤ)
    (roles : List String) (mapping : List (List String))
    (thr : List (String × ℤ × ℤ)) (h : pops.sum < totalDraws) :
    getValidDrawVectors pops totalDraws roles mapping thr = [] ∧
      ∀ N n : ℤ,
        ((getValidDrawVectors pops totalDraws roles mapping thr).map
          (fun v => multivariateHypergeometricPMF pops v N n)).sum = 0 := by
  have he : getValidDrawVectors pops totalDraws roles mapping thr = [] := by
    rw [getValidDrawVectors_eq_filter,
      enumAll_eq_nil_of_sum_lt pops totalDraws h]
    rfl
  exact ⟨he, fun N n => by rw [he]; rfl⟩

/-- Witness for C5: drawing 5 from a 2+2 population yields nothing. -/
theorem getValidDrawVectors_overdraw_witness :
    getValidDrawVectors [2, 2] 5 [] [[], []] [] = [] ∧
      ∀ N n : ℤ,
        ((getValidDrawVectors [2, 2] 5 [] [[], []] []).map
          (fun v => multivariateHypergeometricPMF [2, 2] v N n)).sum = 0 :=
  getValidDrawVectors_overdraw [2, 2] 5 [] [[], []] [] (by norm_num)

/-- C9: with an empty `populationCounts` the JavaScript loop guard compares
against `NaN` and never runs, so `getValidDrawVectors` returns `[]` for every
draw count — including `totalDraws = 0`, where the zero-length all-zero
vector is NOT returned — and the event probability is 0 for every condition. -/
theorem getValidDrawVectors_empty_population :
    ∀ (totalDraws : ℤ) (roles : List String) (mapping : List (List String))
      (thr : List (String × ℤ × ℤ)) (N n : ℤ),
      getValidDrawVectors [] totalDraws roles mapping thr = [] ∧
      ((getValidDrawVectors [] totalDraws roles mapping thr).map
        (fun v => multivariateHypergeometricPMF [] v N n)).sum = 0 :=
  fun _ _ _ _ _ _ => ⟨rfl, rfl⟩

/-- C8: the symmetry identity `nCr(n, r) = nCr(n, n - r)` on the valid
range `0 ≤ r ≤ n`. -/
theorem nCr_symm (n r : ℤ) (hn : 0 ≤ n) (hr : 0 ≤ r) (hrn : r ≤ n) :
    nCr n r = nCr n (n - r) := by
  rw [nCr_eq_choose hr hrn, nCr_eq_choose (by omega) (by omega)]
  have h1 : (n - r).toNat = n.toNat - r.toNat := by omega
  rw [h1, Nat.choose_symm (by omega)]

/-- Witness for C8 at `n = 5`, `r = 2`. -/
theorem nCr_symm_witness : nCr 5 2 = nCr 5 (5 - 2) :=
  nCr_symm 5 2 (by norm_num) (by norm_num) (by norm_num)

/-- C7: with a uniform single-game probability `p` (no sideboard variance)
the best-of-3 formula collapses to `p² (3 - 2p)`; at `p = 0.6` this is
`0.648`. -/
theorem matchWinProb_uniform :
    (∀ p : ℚ, matchWinProb p p p p = p ^ 2 * (3 - 2 * p)) ∧
      matchWinProb (6 / 10) (6 / 10) (6 / 10) (6 / 10) = 648 / 1000 := by
  constructor
  · intro p
    unfold matchWinProb
    ring
  · unfold matchWinProb
    norm_num

/-- C3: when the mulligan is enabled and the draw count is the turn-one
opening-hand baseline, `calculateStepProb` returns exactly
`rawProb + (1 - probKeep) * rawProb` (with `rawProb` the unadjusted event
probability obtained via `forceMulligan` and `probKeep` the event probability
of the single-threshold keep condition `keepRole ∈ [keepMin, deckSize]`);
for a disabled mulligan or any other draw count it returns `rawProb`
unchanged; and the formula instance `rawProb = 0.7`, `probKeep = 0.4`
evaluates to `1.12`. -/
theorem calculateStepProb_mulligan_formula :
    (∀ (st : AppState) (d : ℤ) (c : CompoundCondition),
      st.mulligan.enabled = true → d = openingDraws st →
      calculateStepProb st d c false =
        calculateStepProb st d c true +
          (1 - calculateStepProb st d (keepCondition st) true) *
            calculateStepProb st d c true) ∧
    (∀ (st : AppState) (d : ℤ) (c : CompoundCondition),
      st.mulligan.enabled = false ∨ d ≠ openingDraws st →
      calculateStepProb st d c false = calculateStepProb st d c true) ∧
    ((7 : ℚ) / 10 + (1 - 4 / 10) * (7 / 10) = 112 / 100) := by
  refine ⟨?_, ?_, by norm_num⟩
  · intro st d c hen hd
    by_cases hg : d ≤ 0 ∨ st.deckSize ≤ 0
    · rw [stepProb_zero_of_guard st d c false hg,
        stepProb_zero_of_guard st d c true hg,
        stepProb_zero_of_guard st d (keepCondition st) true hg]
      norm_num
    · subst hd
      unfold calculateStepProb
      simp only [if_neg hg, hen, keepCondition, buildThresholds,
        insertThreshold, List.foldl_cons, List.foldl_nil, List.any_nil,
        Bool.false_eq_true, if_false, List.nil_append, not_true, not_false_iff,
        and_true, and_self, if_true, true_and, eq_self_iff_true]
  · intro st d c h
    by_cases hg : d ≤ 0 ∨ st.deckSize ≤ 0
    · rw [stepProb_zero_of_guard st d c false hg,
        stepProb_zero_of_guard st d c true hg]
    · unfold calculateStepProb
      rcases h with h | h
      · simp only [if_neg hg, h, Bool.false_eq_true, false_and, if_false]
      · simp only [if_neg hg, h, false_and, and_false, if_false]

/-- Witness for C3 at a concrete enabled-mulligan state whose opening hand
is 1 card. -/
theorem calculateStepProb_mulligan_formula_witness :
    calculateStepProb
      { deckSize := 2, startHand := 1, isGoingSecond := false,
        currentPreset := ⟨false, true⟩, atoms := [⟨1, ["Starter"]⟩],
        mulligan := ⟨true, "Starter", 0⟩ }
      1 ⟨1, [⟨"Starter", 1, 2⟩]⟩ false =
    calculateStepProb
      { deckSize := 2, startHand := 1, isGoingSecond := false,
        currentPreset := ⟨false, true⟩, atoms := [⟨1, ["Starter"]⟩],
        mulligan := ⟨true, "Starter", 0⟩ }
      1 ⟨1, [⟨"Starter", 1, 2⟩]⟩ true +
      (1 - calculateStepProb
        { deckSize := 2, startHand := 1, isGoingSecond := false,
          currentPreset := ⟨false, true⟩, atoms := [⟨1, ["Starter"]⟩],
          mulligan := ⟨true, "Starter", 0⟩ }
        1 (keepCondition
          { deckSize := 2, startHand := 1, isGoingSecond := false,
            currentPreset := ⟨false, true⟩, atoms := [⟨1, ["Starter"]⟩],
            mulligan := ⟨true, "Starter", 0⟩ }) true) *
        calculateStepProb
          { deckSize := 2, startHand := 1, isGoingSecond := false,
            currentPreset := ⟨false, true⟩, atoms := [⟨1, ["Starter"]⟩],
            mulligan := ⟨true, "Starter", 0⟩ }
          1 ⟨1, [⟨"Starter", 1, 2⟩]⟩ true :=
  calculateStepProb_mulligan_formula.1 _ 1 _ rfl (by decide)

/-- The role sum as the claim states it: each category whose role list
CONTAINS the role contributes its full drawn count (once). -/
def specRoleSum (vector : List ℤ) (mapping : List (List String))
    (role : String) : ℤ :=
  ((vector.zip mapping).map (fun p => if role ∈ p.2 then p.1 else 0)).sum

/-- With duplicate-free per-category role lists, the implementation's
occurrence-counting role sum is the claim's containment role sum. -/
theorem roleSum_eq_specRoleSum (v : List ℤ) (mapping : List (List String))
    (role : String) (hnd : ∀ l ∈ mapping, l.Nodup) :
    roleSum v mapping role = specRoleSum v mapping role := by
  unfold roleSum specRoleSum
  apply congrArg List.sum
  apply List.map_congr_left
  intro p hp
  have hmem := (List.of_mem_zip hp).2
  have hnodup := hnd p.2 hmem
  by_cases hin : role ∈ p.2
  · rw [if_pos hin, List.count_eq_one_of_mem hnodup hin]
    ring
  · rw [if_neg hin, List.count_eq_zero_of_not_mem hin]
    ring

/-- The acceptance test, expressed through the claim's role sums. -/
theorem checkThresholds_iff (v : List ℤ) (mapping : List (List String))
    (thr : List (String × ℤ × ℤ)) (hnd : ∀ l ∈ mapping, l.Nodup) :
    checkThresholds v mapping thr = true ↔
      ∀ e ∈ thr, e.2.1 ≤ specRoleSum v mapping e.1 ∧
        specRoleSum v mapping e.1 ≤ e.2.2 := by
  unfold checkThresholds
  rw [List.all_eq_true]
  constructor
  · intro h e he
    have := h e he
    rw [decide_eq_true_eq, roleSum_eq_specRoleSum v mapping e.1 hnd] at this
    exact this
  · intro h e he
    rw [decide_eq_true_eq, roleSum_eq_specRoleSum v mapping e.1 hnd]
    exact h e he

/-- C4: `getValidDrawVectors` returns exactly the draw vectors of the right
length whose entries respect `0 ≤ v[i] ≤ populationCounts[i]`, whose entries
sum to `totalDraws`, and whose role sums (full drawn count contributed to
every role of a category) satisfy every threshold; in particular for
`[2,2]`, 2 draws and no thresholds it returns exactly
`[0,2], [1,1], [2,0]`. -/
theorem getValidDrawVectors_characterization :
    (∀ (pops : List ℤ) (totalDraws : ℤ) (roles : List String)
      (mapping : List (List String)) (thr : List (String × ℤ × ℤ)),
      pops ≠ [] → (∀ x ∈ pops, 0 ≤ x) → 0 ≤ totalDraws →
      mapping.length = pops.length → (∀ l ∈ mapping, l.Nodup) →
      ∀ v, v ∈ getValidDrawVectors pops totalDraws roles mapping thr ↔
        (List.Forall₂ (fun a p => 0 ≤ a ∧ a ≤ p) v pops ∧ v.sum = totalDraws ∧
          ∀ e ∈ thr, e.2.1 ≤ specRoleSum v mapping e.1 ∧
            specRoleSum v mapping e.1 ≤ e.2.2)) ∧
    getValidDrawVectors [2, 2] 2 [] [[], []] [] = [[0, 2], [1, 1], [2, 0]] := by
  constructor
  · intro pops totalDraws roles mapping thr hne _hpos hr _hlen hnd v
    rw [getValidDrawVectors_eq_filter, List.mem_filter,
      mem_enumAll_iff pops totalDraws v hne hr,
      checkThresholds_iff v mapping thr hnd]
    tauto
  · decide

/-- Witness for C4: membership of `[1,1]` for a concrete population,
mapping and threshold set. -/
theorem getValidDrawVectors_characterization_witness :
    ([1, 1] : List ℤ) ∈ getValidDrawVectors [2, 2] 2 [] [["A"], ["B"]] [("A", (0, 2))] ↔
      (List.Forall₂ (fun (a : ℤ) (p : ℤ) => 0 ≤ a ∧ a ≤ p) [1, 1] [2, 2] ∧
        List.sum ([1, 1] : List ℤ) = 2 ∧
        ∀ e ∈ [("A", ((0 : ℤ), (2 : ℤ)))],
          e.2.1 ≤ specRoleSum [1, 1] [["A"], ["B"]] e.1 ∧
            specRoleSum [1, 1] [["A"], ["B"]] e.1 ≤ e.2.2) :=
  getValidDrawVectors_characterization.1 [2, 2] 2 [] [["A"], ["B"]]
    [("A", (0, 2))] (by decide) (by decide) (by decide) (by decide)
    (by decide) [1, 1]

/-! ## Swiss round distribution -/

/-- The DP table vanishes above the diagonal: you cannot win more rounds
than have been played.  (The source leaves those cells at their initial 0.) -/
theorem swissDP_eq_zero_of_lt (pm : ℚ) (stam : Bool) (R : ℕ) :
    ∀ r w, r < w → swissDP pm stam R r w = 0
  | 0, _ + 1, _ => rfl
  | r + 1, w, h => by
      have hw : w ≠ 0 := by omega
      rw [swissDP]
      rw [if_neg hw]
      rw [swissDP_eq_zero_of_lt pm stam R r (w - 1) (by omega),
        swissDP_eq_zero_of_lt pm stam R r w (by omega)]
      ring

/-- Each DP row is a probability distribution: it sums to 1, for any match
probability and any per-round penalties. -/
theorem swissDP_row_sum (pm : ℚ) (stam : Bool) (R : ℕ) :
    ∀ r, (∑ w ∈ Finset.range (r + 1), swissDP pm stam R r w) = 1
  | 0 => by simp [swissDP]
  | r + 1 => by
      have ih := swissDP_row_sum pm stam R r
      set P := max 0 (pm - getStaminaPenalty stam (R : ℤ) ((r : ℤ) + 1)) with hP
      have hexp : ∀ w : ℕ, swissDP pm stam R (r + 1) w =
          (if w = 0 then 0 else swissDP pm stam R r (w - 1) * P) +
            swissDP pm stam R r w * (1 - P) := by
        intro w
        rw [swissDP]
      rw [Finset.sum_congr rfl (fun w _ => hexp w), Finset.sum_add_distrib]
      have h1 : (∑ w ∈ Finset.range (r + 1 + 1),
          (if w = 0 then 0 else swissDP pm stam R r (w - 1) * P)) = P := by
        rw [Finset.sum_range_succ']
        rw [if_pos rfl, add_zero]
        have hterm : ∀ x ∈ Finset.range (r + 1),
            (if x + 1 = 0 then (0 : ℚ)
              else swissDP pm stam R r (x + 1 - 1) * P) =
            swissDP pm stam R r x * P := by
          intro x _
          rw [if_neg (Nat.succ_ne_zero x)]
          simp
        rw [Finset.sum_congr rfl hterm, ← Finset.sum_mul, ih, one_mul]
      have h2 : (∑ w ∈ Finset.range (r + 1 + 1),
          swissDP pm stam R r w * (1 - P)) = 1 - P := by
        rw [Finset.sum_range_succ,
          swissDP_eq_zero_of_lt pm stam R r (r + 1) (by omega)]
        rw [← Finset.sum_mul, ih]
        ring
      rw [h1, h2]
      ring

/-- C6: the Swiss round distribution sums to 1 over win counts `0 … R`, in
binomial mode and in stamina/DP mode alike, for every number of rounds and
every match-win probability. -/
theorem roundsDist_sum_eq_one (R : ℕ) (pm : ℚ) (stam : Bool) :
    (roundsDist pm stam R).sum = 1 := by
  unfold roundsDist
  split
  · rw [list_range_map_sum]
    exact swissDP_row_sum pm stam R R
  · rw [list_range_map_sum]
    have hterm : ∀ w ∈ Finset.range (R + 1),
        binomProb (R : ℤ) (w : ℤ) pm =
          pm ^ w * (1 - pm) ^ (R - w) * (Nat.choose R w : ℚ) := by
      intro w hw
      simp only [Finset.mem_range] at hw
      unfold binomProb
      rw [nCr_eq_choose_of_nonneg (by omega) (by omega)]
      have h1 : ((R : ℤ)).toNat = R := by omega
      have h2 : ((w : ℤ)).toNat = w := by omega
      have h3 : ((R : ℤ) - (w : ℤ)).toNat = R - w := by omega
      rw [h1, h2, h3]
      push_cast
      ring
    rw [Finset.sum_congr rfl hterm, ← add_pow pm (1 - pm) R]
    norm_num

/-- A 2-card deck of pure starters, opening hand 2, mulligan enabled with an
unsatisfiable keep bound (`keepMin = 3`): the keep probability is 0 while the
raw event probability is 1, so the adjusted value is `1 + (1-0)*1 = 2`. -/
def mulliganCexState : AppState :=
  { deckSize := 2, startHand := 2, isGoingSecond := false,
    currentPreset := ⟨false, false⟩, atoms := [⟨2, ["Starter"]⟩],
    mulligan := ⟨true, "Starter", 3⟩ }

/-- The event "at least one Starter" for the counterexample deck. -/
def mulliganCexCondition : CompoundCondition := ⟨1, [⟨"Starter", 1, 2⟩]⟩

/-- C2 counterexample: the mulligan-adjusted event probability exceeds 1 at a
concrete, fully valid deck configuration (it evaluates to exactly 2). -/
theorem calculateStepProb_gt_one_cex :
    1 < calculateStepProb mulliganCexState 2 mulliganCexCondition false := by
  have h : calculateStepProb mulliganCexState 2 mulliganCexCondition false = 2 := by
    norm_num [calculateStepProb, mulliganCexState, mulliganCexCondition,
      openingDraws, buildThresholds, insertThreshold, keepCondition,
      getValidDrawVectors, solveVec, checkThresholds, roleSum,
      multivariateHypergeometricPMF, nCr]
  rw [h]
  norm_num

/-- Witness for C2 at the counterexample deck with the mulligan turned off:
the probability is within `[0, 1]`. -/
theorem calculateStepProb_mem_unitInterval_witness :
    0 ≤ calculateStepProb
      { deckSize := 2, startHand := 2, isGoingSecond := false,
        currentPreset := ⟨false, false⟩, atoms := [⟨2, ["Starter"]⟩],
        mulligan := ⟨false, "Starter", 3⟩ }
      2 mulliganCexCondition false ∧
    calculateStepProb
      { deckSize := 2, startHand := 2, isGoingSecond := false,
        currentPreset := ⟨false, false⟩, atoms := [⟨2, ["Starter"]⟩],
        mulligan := ⟨false, "Starter", 3⟩ }
      2 mulliganCexCondition false ≤ 1 :=
  calculateStepProb_mem_unitInterval _ 2 mulliganCexCondition false
    (by decide) (by decide) rfl
